import Mathlib

/-!
Shallow embedding of the coinkit core (consensus/seed_sort.go, network/scp.go,
util SignedOperation, and the spec-modelled currency layer), together with
theorems settling the frozen claims about it.

Go strings are byte strings; we model them as `List (Fin 256)`.  Go's string
comparison (used by `sort.Strings`) is lexicographic on bytes with a shorter
prefix ordered first; `strLt` below is exactly that comparison.
-/

set_option maxRecDepth 100000

namespace Coinkit

abbrev Byte := Fin 256

abbrev GoStr := List Byte

def mkByte (n : Nat) : Byte := ⟨n % 256, Nat.mod_lt _ (by decide)⟩

/-- Convenience constructor for concrete byte strings. -/
def str (l : List Nat) : GoStr := l.map mkByte

/-- Go string comparison `a < b`: lexicographic on bytes, shorter prefix first. -/
def strLt : GoStr → GoStr → Bool
  | [], [] => false
  | [], _ :: _ => true
  | _ :: _, [] => false
  | a :: as, b :: bs =>
    if a.val < b.val then true
    else if b.val < a.val then false
    else strLt as bs

def strLe (a b : GoStr) : Bool := !(strLt b a)

/-! ## SHA3-512 (FIPS 202), the hash used via golang.org/x/crypto/sha3.

Lanes are 64-bit words, modelled as `Nat` reduced mod `2 ^ 64`.  The state is
the flat list of 25 lanes, lane `(x, y)` at index `x + 5 * y`. -/

def rotl64 (v d : Nat) : Nat :=
  ((v <<< d) ||| (v >>> (64 - d))) % (2 ^ 64)

/-- One step of the degree-8 LFSR of FIPS 202 Algorithm 5
(feedback polynomial x^8 + x^6 + x^5 + x^4 + 1). -/
def rcStep (r : Nat) : Nat :=
  let r2 := r <<< 1
  if r2 &&& 256 = 0 then r2 else (r2 ^^^ 0x71) &&& 255

def rcReg : Nat → Nat
  | 0 => 1
  | t + 1 => rcStep (rcReg t)

/-- Bit `rc(t)` of FIPS 202 Algorithm 5. -/
def rcBit (t : Nat) : Nat := rcReg t &&& 1

/-- Keccak round constants, generated per FIPS 202:
`RC[i]` has bit `2 ^ j - 1` equal to `rc(7 i + j)`. -/
def keccakRC : List Nat :=
  (List.range 24).map fun i =>
    (List.range 7).foldl (fun acc j => acc + rcBit (7 * i + j) <<< (2 ^ j - 1)) 0

/-- Combined ρ and π step table: entry `j` is `(i, d)` meaning output lane `j`
is input lane `i` rotated left by `d`. -/
def rhoPiTable : List (Nat × Nat) :=
  [(0, 0), (6, 44), (12, 43), (18, 21), (24, 14), (3, 28), (9, 20), (10, 3),
   (16, 45), (22, 61), (1, 1), (7, 6), (13, 25), (19, 8), (20, 18), (4, 27),
   (5, 36), (11, 10), (17, 15), (23, 56), (2, 62), (8, 55), (14, 39), (15, 41),
   (21, 2)]

def keccakRound (s : List Nat) (rc : Nat) : List Nat :=
  let c := (List.range 5).map fun x =>
    (s.getD x 0) ^^^ (s.getD (x + 5) 0) ^^^ (s.getD (x + 10) 0) ^^^
      (s.getD (x + 15) 0) ^^^ (s.getD (x + 20) 0)
  let d := (List.range 5).map fun x =>
    (c.getD ((x + 4) % 5) 0) ^^^ rotl64 (c.getD ((x + 1) % 5) 0) 1
  let s1 := (List.range 25).map fun i => (s.getD i 0) ^^^ (d.getD (i % 5) 0)
  let b := rhoPiTable.map fun p => rotl64 (s1.getD p.1 0) p.2
  let s2 := (List.range 25).map fun i =>
    (b.getD i 0) ^^^
      (((b.getD ((i % 5 + 1) % 5 + 5 * (i / 5)) 0) ^^^ (2 ^ 64 - 1)) &&&
        (b.getD ((i % 5 + 2) % 5 + 5 * (i / 5)) 0))
  match s2 with
  | a0 :: rest => (a0 ^^^ rc) :: rest
  | [] => []

def keccakF (s : List Nat) : List Nat := keccakRC.foldl keccakRound s

/-- SHA3 `pad10*1` padding with the 0x06 domain byte, to a multiple of the
72-byte rate. -/
def sha3Pad (msg : List Nat) : List Nat :=
  let q := 72 - msg.length % 72
  if q = 1 then msg ++ [0x86]
  else msg ++ 0x06 :: List.replicate (q - 2) 0 ++ [0x80]

/-- Read 8 bytes as a little-endian 64-bit lane. -/
def laneOfBytes (l : List Nat) : Nat :=
  (l.take 8).foldr (fun b acc => acc * 256 + b) 0

def blockLanes (block : List Nat) : List Nat :=
  (List.range 9).map fun k => laneOfBytes (block.drop (8 * k))

def absorbBlock (s : List Nat) (block : List Nat) : List Nat :=
  keccakF ((List.range 25).map fun i => (s.getD i 0) ^^^ ((blockLanes block).getD i 0))

/-- Structural (fuel-indexed) split of the padded message into 72-byte blocks. -/
def absorbAux : Nat → List Nat → List Nat → List Nat
  | 0, s, _ => s
  | _ + 1, s, [] => s
  | fuel + 1, s, l => absorbAux fuel (absorbBlock s (l.take 72)) (l.drop 72)

def laneBytes (v : Nat) : List Nat :=
  (List.range 8).map fun k => (v >>> (8 * k)) % 256

/-- SHA3-512 digest of a byte string (64 bytes). -/
def sha3_512 (msg : GoStr) : GoStr :=
  let m := sha3Pad (msg.map Fin.val)
  let s := absorbAux (m.length / 72 + 1) (List.replicate 25 0) m
  (((List.range 8).map fun k => laneBytes (s.getD k 0)).flatten).map mkByte

example : sha3_512 [] =
    str [166, 159, 115, 204, 162, 58, 154, 197, 200, 181, 103, 220, 24, 90, 117,
      110, 151, 201, 130, 22, 79, 226, 88, 89, 224, 209, 220, 193, 71, 92, 128,
      166, 21, 178, 18, 58, 241, 245, 249, 76, 17, 227, 233, 64, 44, 58, 197,
      88, 245, 0, 25, 157, 149, 182, 211, 227, 1, 117, 133, 134, 40, 29, 205,
      38] := by decide

/-! ## base64 RawStdEncoding (no padding), as used by `HashString`. -/

/-- Codepoint of the standard base64 alphabet character at index `i < 64`. -/
def b64Char (i : Nat) : Byte :=
  mkByte (if i < 26 then 65 + i
    else if i < 52 then 71 + i
    else if i < 62 then i - 4
    else if i = 62 then 43 else 47)

def b64Encode : GoStr → GoStr
  | [] => []
  | [b1] => [b64Char (b1.val / 4), b64Char (b1.val % 4 * 16)]
  | [b1, b2] =>
    [b64Char (b1.val / 4), b64Char (b1.val % 4 * 16 + b2.val / 16),
     b64Char (b2.val % 16 * 4)]
  | b1 :: b2 :: b3 :: rest =>
    b64Char (b1.val / 4) :: b64Char (b1.val % 4 * 16 + b2.val / 16) ::
      b64Char (b2.val % 16 * 4 + b3.val / 64) :: b64Char (b3.val % 64) ::
      b64Encode rest

/-- Inverse of the base64 alphabet map (arbitrary on non-alphabet bytes). -/
def b64CharInv (c : Byte) : Nat :=
  if 65 ≤ c.val ∧ c.val ≤ 90 then c.val - 65
  else if 97 ≤ c.val ∧ c.val ≤ 122 then c.val - 71
  else if 48 ≤ c.val ∧ c.val ≤ 57 then c.val + 4
  else if c.val = 43 then 62 else 63

def b64Decode : GoStr → GoStr
  | [] => []
  | [_] => []
  | [c1, c2] => [mkByte (b64CharInv c1 * 4 + b64CharInv c2 / 16)]
  | [c1, c2, c3] =>
    [mkByte (b64CharInv c1 * 4 + b64CharInv c2 / 16),
     mkByte (b64CharInv c2 % 16 * 16 + b64CharInv c3 / 4)]
  | c1 :: c2 :: c3 :: c4 :: rest =>
    mkByte (b64CharInv c1 * 4 + b64CharInv c2 / 16) ::
      mkByte (b64CharInv c2 % 16 * 16 + b64CharInv c3 / 4) ::
      mkByte (b64CharInv c3 % 4 * 64 + b64CharInv c4) ::
      b64Decode rest

theorem b64CharInv_b64Char : ∀ i : Nat, i < 64 → b64CharInv (b64Char i) = i := by
  decide

theorem b64_roundtrip : ∀ l : GoStr, b64Decode (b64Encode l) = l
  | [] => rfl
  | [b1] => by
    have h1 := b64CharInv_b64Char (b1.val / 4) (by omega)
    have h2 := b64CharInv_b64Char (b1.val % 4 * 16) (by omega)
    have hb := b1.isLt
    simp only [b64Encode, b64Decode, h1, h2]
    congr 1
    apply Fin.ext
    simp only [mkByte]
    omega
  | [b1, b2] => by
    have hb1 := b1.isLt
    have hb2 := b2.isLt
    have h1 := b64CharInv_b64Char (b1.val / 4) (by omega)
    have h2 := b64CharInv_b64Char (b1.val % 4 * 16 + b2.val / 16) (by omega)
    have h3 := b64CharInv_b64Char (b2.val % 16 * 4) (by omega)
    simp only [b64Encode, b64Decode, h1, h2, h3]
    congr 1
    · apply Fin.ext; simp only [mkByte]; omega
    congr 1
    apply Fin.ext; simp only [mkByte]; omega
  | b1 :: b2 :: b3 :: rest => by
    have hb1 := b1.isLt
    have hb2 := b2.isLt
    have hb3 := b3.isLt
    have h1 := b64CharInv_b64Char (b1.val / 4) (by omega)
    have h2 := b64CharInv_b64Char (b1.val % 4 * 16 + b2.val / 16) (by omega)
    have h3 := b64CharInv_b64Char (b2.val % 16 * 4 + b3.val / 64) (by omega)
    have h4 := b64CharInv_b64Char (b3.val % 64) (by omega)
    have ih := b64_roundtrip rest
    -- the four encoded characters land in the `c1 :: c2 :: c3 :: c4 :: rest`
    -- branch of `b64Decode` whatever `b64Encode rest` is
    show b64Decode (b64Char (b1.val / 4) :: b64Char (b1.val % 4 * 16 + b2.val / 16) ::
      b64Char (b2.val % 16 * 4 + b3.val / 64) :: b64Char (b3.val % 64) ::
      b64Encode rest) = b1 :: b2 :: b3 :: rest
    simp only [b64Decode, h1, h2, h3, h4, ih]
    congr 1
    · apply Fin.ext; simp only [mkByte]; omega
    congr 1
    · apply Fin.ext; simp only [mkByte]; omega
    congr 1
    apply Fin.ext; simp only [mkByte]; omega

theorem b64Encode_injective : Function.Injective b64Encode := by
  intro a b h
  have := b64_roundtrip a
  rw [h, b64_roundtrip b] at this
  exact this.symm

/-! ## Properties of the Go string order. -/

theorem strLt_irrefl : ∀ a : GoStr, strLt a a = false
  | [] => rfl
  | x :: xs => by simp [strLt, strLt_irrefl xs]

theorem strLt_trans : ∀ a b c : GoStr, strLt a b = true → strLt b c = true →
    strLt a c = true
  | [], [], _, h, _ => by cases h
  | [], _ :: _, [], _, h => by cases h
  | [], _ :: _, _ :: _, _, _ => rfl
  | _ :: _, [], _, h, _ => by cases h
  | _ :: _, _ :: _, [], _, h => by cases h
  | a :: as, b :: bs, c :: cs, h1, h2 => by
    simp only [strLt] at h1 h2 ⊢
    split at h1
    · split at h2
      · simp only [if_pos (by omega : a.val < c.val)]
      · split at h2
        · cases h2
        · simp only [if_pos (by omega : a.val < c.val)]
    · split at h1
      · cases h1
      · split at h2
        · simp only [if_pos (by omega : a.val < c.val)]
        · split at h2
          · cases h2
          · have : ¬ a.val < c.val := by omega
            simp only [if_neg this, if_neg (by omega : ¬ c.val < a.val)]
            exact strLt_trans as bs cs h1 h2

theorem strLt_trichotomy : ∀ a b : GoStr, strLt a b = true ∨ a = b ∨ strLt b a = true
  | [], [] => Or.inr (Or.inl rfl)
  | [], _ :: _ => Or.inl rfl
  | _ :: _, [] => Or.inr (Or.inr rfl)
  | a :: as, b :: bs => by
    rcases Nat.lt_trichotomy a.val b.val with h | h | h
    · exact Or.inl (by simp [strLt, h])
    · have hab : a = b := Fin.ext h
      rcases strLt_trichotomy as bs with h' | h' | h'
      · exact Or.inl (by simp [strLt, h, h'])
      · exact Or.inr (Or.inl (by rw [hab, h']))
      · exact Or.inr (Or.inr (by simp [strLt, h, h']))
    · exact Or.inr (Or.inr (by simp [strLt, h]))

theorem strLt_asymm (a b : GoStr) (h : strLt a b = true) : strLt b a = false := by
  by_contra hc
  have hba : strLt b a = true := by
    cases hcase : strLt b a
    · exact absurd hcase hc
    · rfl
  have := strLt_trans a b a h hba
  rw [strLt_irrefl] at this
  cases this

theorem strLe_total (a b : GoStr) : strLe a b = true ∨ strLe b a = true := by
  simp only [strLe, Bool.not_eq_true']
  rcases strLt_trichotomy a b with h | h | h
  · exact Or.inl (strLt_asymm a b h)
  · subst h
    exact Or.inl (strLt_irrefl a)
  · exact Or.inr (strLt_asymm b a h)

theorem strLe_trans (a b c : GoStr) (h1 : strLe a b = true) (h2 : strLe b c = true) :
    strLe a c = true := by
  simp only [strLe, Bool.not_eq_true'] at h1 h2 ⊢
  by_contra hc
  have hca : strLt c a = true := by
    cases hcase : strLt c a
    · exact absurd hcase hc
    · rfl
  rcases strLt_trichotomy a b with h | h | h
  · have := strLt_trans c a b hca h
    rw [h2] at this; cases this
  · subst h
    rw [hca] at h2; cases h2
  · rw [h] at h1; cases h1

theorem strLe_antisymm (a b : GoStr) (h1 : strLe a b = true) (h2 : strLe b a = true) :
    a = b := by
  simp only [strLe, Bool.not_eq_true'] at h1 h2
  rcases strLt_trichotomy a b with h | h | h
  · rw [h] at h2; cases h2
  · exact h
  · rw [h] at h1; cases h1

instance : IsTotal GoStr (fun a b => strLe a b = true) := ⟨strLe_total⟩

instance : IsTrans GoStr (fun a b => strLe a b = true) := ⟨strLe_trans⟩

instance : IsAntisymm GoStr (fun a b => strLe a b = true) := ⟨strLe_antisymm⟩

/-! ## seed_sort.go -/

/-- Go `hash.Hash.Sum`: `h.Sum(b)` returns `b` with the digest of everything
written to the hasher so far appended.  `HashString` writes nothing before
calling `Sum`, so `written = []` there. -/
def hashSum (written b : GoStr) : GoStr := b ++ sha3_512 written

/-- `HashString` from seed_sort.go: `h := sha3.New512(); h.Sum([]byte(x))`,
base64-encoded with `RawStdEncoding`. -/
def HashString (x : GoStr) : GoStr := b64Encode (hashSum [] x)

/-- Lookup in a Go `map[string]string` built by successive assignments:
the last assignment to a key wins; a missing key gives the zero value `""`. -/
def goMapGet (m : List (GoStr × GoStr)) (k : GoStr) : GoStr :=
  match m.reverse.find? (fun p => p.1 == k) with
  | some p => p.2
  | none => []

/-- Go `sort.Strings`: sorts ascending in the Go string order.  Extensionally
any correct sort; embedded as insertion sort on `strLe`. -/
def sortStrings (l : List GoStr) : List GoStr :=
  List.insertionSort (fun a b => strLe a b = true) l

/-- `SeedSort` from seed_sort.go: hash `seed + x` for each input, sort the
hash strings, and read the inputs back through the hash-keyed map. -/
def SeedSort (seed : GoStr) (input : List GoStr) : List GoStr :=
  let pairs := input.map fun x => (HashString (seed ++ x), x)
  let keys := pairs.map Prod.fst
  (sortStrings keys).map fun key => goMapGet pairs key

/-- The loop of `SeedPriority`; falling off the end is the
`panic("we have no seed priority")` branch, modelled as `none`. -/
def seedPriorityLoop (node : GoStr) : List GoStr → Nat → Option Nat
  | [], _ => none
  | v :: rest, i => if v = node then some i else seedPriorityLoop node rest (i + 1)

def SeedPriority (seed : GoStr) (input : List GoStr) (node : GoStr) : Option Nat :=
  seedPriorityLoop node (SeedSort seed input) 0

theorem HashString_injective : Function.Injective HashString := by
  intro a b h
  have h1 : hashSum [] a = hashSum [] b := b64Encode_injective h
  exact List.append_cancel_right h1

theorem goMapGet_eq (m : List (GoStr × GoStr)) (k v : GoStr)
    (hall : ∀ p ∈ m, p.1 = k → p.2 = v) (hex : ∃ p ∈ m, p.1 = k) :
    goMapGet m k = v := by
  unfold goMapGet
  cases hfind : m.reverse.find? (fun p => p.1 == k) with
  | none =>
    rw [List.find?_eq_none] at hfind
    obtain ⟨p, hp, hpk⟩ := hex
    exact absurd (by simp [hpk]) (hfind p (List.mem_reverse.mpr hp))
  | some p =>
    have h1 : (p.1 == k) = true := by
      have := List.find?_some hfind
      simpa using this
    have h2 : p ∈ m := List.mem_reverse.mp (List.mem_of_find?_eq_some hfind)
    exact hall p h2 (by simpa using h1)

theorem goMapGet_hash_pairs (seed : GoStr) (input : List GoStr) (x : GoStr)
    (hx : x ∈ input) :
    goMapGet (input.map fun y => (HashString (seed ++ y), y))
      (HashString (seed ++ x)) = x := by
  apply goMapGet_eq
  · intro p hp hpk
    obtain ⟨y, hy, rfl⟩ := List.mem_map.mp hp
    have : seed ++ y = seed ++ x := HashString_injective hpk
    exact List.append_cancel_left this
  · exact ⟨(HashString (seed ++ x), x), List.mem_map.mpr ⟨x, hx, rfl⟩, rfl⟩

theorem SeedSort_perm (seed : GoStr) (input : List GoStr) :
    (SeedSort seed input).Perm input := by
  unfold SeedSort
  have hperm :
      (sortStrings ((input.map fun x => (HashString (seed ++ x), x)).map Prod.fst)).Perm
        ((input.map fun x => (HashString (seed ++ x), x)).map Prod.fst) :=
    List.perm_insertionSort _ _
  have key : ∀ l : List GoStr, (∀ x ∈ l, x ∈ input) →
      ((l.map fun x => (HashString (seed ++ x), x)).map Prod.fst).map
        (fun key => goMapGet (input.map fun y => (HashString (seed ++ y), y)) key) = l := by
    intro l hl
    induction l with
    | nil => rfl
    | cons a t ih =>
      simp only [List.map_cons]
      rw [ih fun x hx => hl x (List.mem_cons_of_mem a hx)]
      rw [goMapGet_hash_pairs seed input a (hl a (List.mem_cons_self a t))]
  refine (hperm.map _).trans ?_
  rw [key input fun x hx => hx]

theorem seedPriorityLoop_mem (node : GoStr) : ∀ (l : List GoStr) (i : Nat),
    node ∈ l → ∃ j, seedPriorityLoop node l i = some (i + j) ∧ l[j]? = some node
  | [], _, h => absurd h (List.not_mem_nil node)
  | v :: rest, i, h => by
    by_cases hv : v = node
    · exact ⟨0, by simp [seedPriorityLoop, hv], by simp [hv]⟩
    · have hmem : node ∈ rest := by
        rcases List.mem_cons.mp h with h' | h'
        · exact absurd h'.symm hv
        · exact h'
      obtain ⟨j, hj1, hj2⟩ := seedPriorityLoop_mem node rest (i + 1) hmem
      refine ⟨j + 1, ?_, by simpa using hj2⟩
      simp only [seedPriorityLoop, if_neg hv]
      rw [hj1]
      congr 1
      omega

theorem seedPriorityLoop_not_mem (node : GoStr) : ∀ (l : List GoStr) (i : Nat),
    node ∉ l → seedPriorityLoop node l i = none
  | [], _, _ => rfl
  | v :: rest, i, h => by
    have hv : ¬ v = node := fun e => h (e ▸ List.mem_cons_self v rest)
    simp only [seedPriorityLoop, if_neg hv]
    exact seedPriorityLoop_not_mem node rest (i + 1)
      fun hm => h (List.mem_cons_of_mem v hm)

/-- C6: `SeedSort seed xs` returns a permutation of `xs` (the same elements
with the same multiplicities), and the result is determined solely by the
pair `(seed, xs)`. -/
theorem seedSort_perm_deterministic (seed : GoStr) (xs : List GoStr) :
    (SeedSort seed xs).Perm xs ∧
      ∀ seed' xs', seed = seed' → xs = xs' →
        SeedSort seed xs = SeedSort seed' xs' := by
  refine ⟨SeedSort_perm seed xs, ?_⟩
  rintro seed' xs' rfl rfl
  rfl

/-- Witness for C6 at seed "s" and xs = ["a"]. -/
theorem seedSort_perm_deterministic_witness :
    (SeedSort (str [115]) [str [97]]).Perm [str [97]] ∧
      SeedSort (str [115]) [str [97]] = SeedSort (str [115]) [str [97]] :=
  ⟨(seedSort_perm_deterministic (str [115]) [str [97]]).1,
   (seedSort_perm_deterministic (str [115]) [str [97]]).2 (str [115]) [str [97]] rfl rfl⟩

/-- C9: if `node` occurs in `input` then `SeedPriority` returns an index of
`node` in the seed-sorted list; if it does not occur, `SeedPriority` reaches
the `panic` (modelled as `none`) instead of returning. -/
theorem seedPriority_index_or_panic (seed : GoStr) (input : List GoStr)
    (node : GoStr) :
    (node ∈ input → ∃ i, SeedPriority seed input node = some i ∧
        (SeedSort seed input)[i]? = some node) ∧
      (node ∉ input → SeedPriority seed input node = none) := by
  constructor
  · intro h
    have hmem : node ∈ SeedSort seed input :=
      (SeedSort_perm seed input).mem_iff.mpr h
    obtain ⟨j, hj1, hj2⟩ := seedPriorityLoop_mem node (SeedSort seed input) 0 hmem
    exact ⟨j, by simpa using hj1, hj2⟩
  · intro h
    exact seedPriorityLoop_not_mem node (SeedSort seed input) 0
      fun hm => h ((SeedSort_perm seed input).mem_iff.mp hm)

/-- Witness for C9: "a" occurs in ["a"]; "a" does not occur in ["b"]. -/
theorem seedPriority_index_or_panic_witness :
    (∃ i, SeedPriority (str [115]) [str [97]] (str [97]) = some i ∧
        (SeedSort (str [115]) [str [97]])[i]? = some (str [97])) ∧
      SeedPriority (str [115]) [str [98]] (str [97]) = none :=
  ⟨(seedPriority_index_or_panic (str [115]) [str [97]] (str [97])).1 (by decide),
   (seedPriority_index_or_panic (str [115]) [str [98]] (str [97])).2 (by decide)⟩

/-- C1 (code bug): at seed "s" and nodes ["a", "b"], `SeedSort` returns
["a", "b"] although `SHA3-512("sb")` is strictly below `SHA3-512("sa")`, so
the output is not ordered ascending by `SHA3-512(seed ++ node)`.  The cause:
`HashString` calls `h.Sum([]byte(x))` without writing `x` into the hasher, so
the sort key is `base64(x ++ SHA3-512(""))` rather than the digest of `x`. -/
theorem seedSort_not_digest_ordered :
    SeedSort (str [115]) [str [97], str [98]] = [str [97], str [98]] ∧
      strLt (sha3_512 (str [115] ++ str [98]))
        (sha3_512 (str [115] ++ str [97])) = true := by
  constructor
  · decide
  · decide

/-! ## network/scp.go -/

structure SlotValue where
  Comments : List GoStr
deriving DecidableEq

def MakeSlotValue (comment : GoStr) : SlotValue := ⟨[comment]⟩

/-- `Combine` from scp.go: join the comment lists, `sort.Strings` the result,
then drop adjacent duplicates with the `answer` loop. -/
def Combine (a b : SlotValue) : SlotValue :=
  let joined := sortStrings (a.Comments ++ b.Comments)
  let answer := joined.foldl
    (fun answer item =>
      if answer.length = 0 ∨ answer.getLast? ≠ some item then answer ++ [item]
      else answer) []
  ⟨answer⟩

structure QuorumSlice where
  Members : List GoStr
  Threshold : Int
deriving DecidableEq

structure NominateMessage where
  I : Int
  X : List SlotValue
  Y : List SlotValue
  D : QuorumSlice
deriving DecidableEq

/-- `NominationState` from scp.go; the Go map `N` is modelled as the list of
assignments, the last assignment to a key winning. -/
structure NominationState where
  X : List SlotValue
  Y : List SlotValue
  Z : List SlotValue
  N : List (GoStr × NominateMessage)
deriving DecidableEq

def NewNominationState : NominationState := ⟨[], [], [], []⟩

def HasNomination (s : NominationState) : Bool := decide (s.X.length > 0)

def SetDefault (s : NominationState) (v : SlotValue) : NominationState :=
  if HasNomination s then s else { s with X := [v] }

/-- `NominationState.Handle` from scp.go: the whole body is `// TODO`, so the
method returns leaving the state untouched. -/
def Handle (s : NominationState) (node : GoStr) (m : NominateMessage) :
    NominationState :=
  s

/-- Lookup in the Go map `N`. -/
def nLookup (m : List (GoStr × NominateMessage)) (k : GoStr) :
    Option NominateMessage :=
  (m.reverse.find? fun p => p.1 == k).map Prod.snd

/-! ### Dedup loop of `Combine`. -/

/-- The `answer` loop of `Combine` after its first append: drop elements equal
to the previous kept element. -/
def dedupAux : List GoStr → GoStr → List GoStr
  | [], _ => []
  | x :: xs, last => if x = last then dedupAux xs last else x :: dedupAux xs x

def destutterStr : List GoStr → List GoStr
  | [] => []
  | x :: xs => x :: dedupAux xs x

theorem foldl_dedup_go : ∀ (l ys : List GoStr) (last : GoStr),
    List.foldl
      (fun answer item =>
        if answer.length = 0 ∨ answer.getLast? ≠ some item then answer ++ [item]
        else answer)
      (ys ++ [last]) l = ys ++ last :: dedupAux l last
  | [], ys, last => by simp [dedupAux]
  | x :: xs, ys, last => by
    simp only [List.foldl_cons]
    by_cases hx : x = last
    · subst hx
      have hcond : ¬ ((ys ++ [x]).length = 0 ∨ (ys ++ [x]).getLast? ≠ some x) := by
        simp [List.getLast?_concat]
      rw [if_neg hcond, foldl_dedup_go xs ys x]
      simp [dedupAux]
    · have hcond : (ys ++ [last]).length = 0 ∨ (ys ++ [last]).getLast? ≠ some x := by
        simp only [List.getLast?_concat]
        exact Or.inr (by simpa using fun h => hx h.symm)
      rw [if_pos hcond]
      have : ys ++ [last] ++ [x] = (ys ++ [last]) ++ [x] := rfl
      rw [this, foldl_dedup_go xs (ys ++ [last]) x]
      simp [dedupAux, hx]

theorem combine_comments (a b : SlotValue) :
    (Combine a b).Comments = destutterStr (sortStrings (a.Comments ++ b.Comments)) := by
  unfold Combine
  cases hj : sortStrings (a.Comments ++ b.Comments) with
  | nil => rfl
  | cons x xs =>
    simp only [List.foldl_cons]
    have hcond : ([] : List GoStr).length = 0 ∨ ([] : List GoStr).getLast? ≠ some x := by
      simp
    rw [if_pos hcond]
    have : ([] : List GoStr) ++ [x] = [] ++ [x] := rfl
    rw [this, foldl_dedup_go xs [] x]
    rfl

theorem strLt_of_le_ne (a b : GoStr) (hle : strLe a b = true) (hne : a ≠ b) :
    strLt a b = true := by
  simp only [strLe, Bool.not_eq_true'] at hle
  rcases strLt_trichotomy a b with h | h | h
  · exact h
  · exact absurd h hne
  · rw [h] at hle; cases hle

theorem mem_dedupAux : ∀ (l : List GoStr) (last x : GoStr),
    List.Pairwise (fun a b => strLe a b = true) l →
    (∀ y ∈ l, strLe last y = true) →
    (x ∈ dedupAux l last ↔ x ∈ l ∧ x ≠ last)
  | [], last, x, _, _ => by simp [dedupAux]
  | b :: t, last, x, hsort, hge => by
    have hsort' := List.pairwise_cons.mp hsort
    by_cases hb : b = last
    · subst hb
      rw [dedupAux, if_pos rfl, mem_dedupAux t b x hsort'.2 hsort'.1]
      constructor
      · exact fun ⟨h1, h2⟩ => ⟨List.mem_cons_of_mem b h1, h2⟩
      · rintro ⟨h1, h2⟩
        rcases List.mem_cons.mp h1 with h | h
        · exact absurd h h2
        · exact ⟨h, h2⟩
    · rw [dedupAux, if_neg hb]
      rw [List.mem_cons, mem_dedupAux t b x hsort'.2 hsort'.1]
      have hlastb : strLe last b = true := hge b (List.mem_cons_self b t)
      constructor
      · rintro (rfl | ⟨h1, h2⟩)
        · exact ⟨List.mem_cons_self x t, hb⟩
        · refine ⟨List.mem_cons_of_mem b h1, ?_⟩
          rintro rfl
          exact hb (strLe_antisymm b x (hsort'.1 x h1) hlastb)
      · rintro ⟨h1, h2⟩
        rcases List.mem_cons.mp h1 with h | h
        · exact Or.inl h
        · by_cases hxb : x = b
          · exact Or.inl hxb
          · exact Or.inr ⟨h, hxb⟩

theorem pairwise_dedupAux : ∀ (l : List GoStr) (last : GoStr),
    List.Pairwise (fun a b => strLe a b = true) l →
    (∀ y ∈ l, strLe last y = true) →
    List.Pairwise (fun a b => strLt a b = true) (dedupAux l last) ∧
      ∀ y ∈ dedupAux l last, strLt last y = true
  | [], last, _, _ => by simp [dedupAux]
  | b :: t, last, hsort, hge => by
    have hsort' := List.pairwise_cons.mp hsort
    by_cases hb : b = last
    · subst hb
      rw [dedupAux, if_pos rfl]
      exact pairwise_dedupAux t b hsort'.2 hsort'.1
    · rw [dedupAux, if_neg hb]
      obtain ⟨ih1, ih2⟩ := pairwise_dedupAux t b hsort'.2 hsort'.1
      have hlastb : strLt last b = true :=
        strLt_of_le_ne last b (hge b (List.mem_cons_self b t)) fun h => hb h.symm
      refine ⟨List.pairwise_cons.mpr ⟨fun y hy => ih2 y hy, ih1⟩, ?_⟩
      intro y hy
      rcases List.mem_cons.mp hy with rfl | hy'
      · exact hlastb
      · exact strLt_trans last b y hlastb (ih2 y hy')

/-- C7: `Combine` is commutative and its result's comment list is the sorted
union of the two inputs' comments with duplicates removed. -/
theorem combine_comm_sorted_union (a b : SlotValue) :
    Combine a b = Combine b a ∧
      List.Pairwise (fun x y => strLt x y = true) (Combine a b).Comments ∧
      ∀ x, x ∈ (Combine a b).Comments ↔ x ∈ a.Comments ∨ x ∈ b.Comments := by
  have hsortab : sortStrings (a.Comments ++ b.Comments) =
      sortStrings (b.Comments ++ a.Comments) :=
    @List.eq_of_perm_of_sorted GoStr (fun x y => strLe x y = true) _ _ _
      ((List.perm_insertionSort _ _).trans
        (List.perm_append_comm.trans (List.perm_insertionSort _ _).symm))
      (List.sorted_insertionSort _ _) (List.sorted_insertionSort _ _)
  refine ⟨?_, ?_, ?_⟩
  · show Combine a b = Combine b a
    unfold Combine
    rw [hsortab]
  · rw [combine_comments]
    have hsorted : List.Pairwise (fun x y => strLe x y = true)
        (sortStrings (a.Comments ++ b.Comments)) :=
      List.sorted_insertionSort _ _
    cases hj : sortStrings (a.Comments ++ b.Comments) with
    | nil => simp [destutterStr]
    | cons x xs =>
      rw [hj] at hsorted
      have hsort' := List.pairwise_cons.mp hsorted
      obtain ⟨h1, h2⟩ := pairwise_dedupAux xs x hsort'.2 hsort'.1
      exact List.pairwise_cons.mpr ⟨fun y hy => h2 y hy, h1⟩
  · intro x
    rw [combine_comments]
    have hmem : ∀ y, y ∈ sortStrings (a.Comments ++ b.Comments) ↔
        y ∈ a.Comments ∨ y ∈ b.Comments := by
      intro y
      show y ∈ List.insertionSort (fun x y => strLe x y = true)
        (a.Comments ++ b.Comments) ↔ _
      rw [(List.perm_insertionSort _ _).mem_iff, List.mem_append]
    have hsorted : List.Pairwise (fun x y => strLe x y = true)
        (sortStrings (a.Comments ++ b.Comments)) :=
      List.sorted_insertionSort _ _
    cases hj : sortStrings (a.Comments ++ b.Comments) with
    | nil =>
      simp only [destutterStr, List.not_mem_nil, false_iff]
      rw [hj] at hmem
      intro hc
      rcases hc with hc | hc
      · exact (List.not_mem_nil x) ((hmem x).mpr (Or.inl hc))
      · exact (List.not_mem_nil x) ((hmem x).mpr (Or.inr hc))
    | cons z zs =>
      rw [hj] at hsorted hmem
      have hsort' := List.pairwise_cons.mp hsorted
      rw [destutterStr, List.mem_cons,
        mem_dedupAux zs z x hsort'.2 hsort'.1, ← hmem x, List.mem_cons]
      constructor
      · rintro (rfl | ⟨h1, _⟩)
        · exact Or.inl rfl
        · exact Or.inr h1
      · rintro (rfl | h1)
        · exact Or.inl rfl
        · by_cases hxz : x = z
          · exact Or.inl hxz
          · exact Or.inr ⟨h1, hxz⟩

/-- Message used for the C3 failing input. -/
def msg0 : NominateMessage :=
  ⟨1, [MakeSlotValue (str [99])], [], ⟨[str [112]], 1⟩⟩

/-- C3 (code bug): `NominationState.Handle` has a `// TODO` body, so it leaves
the state unchanged for every input; in particular after handling a message
from peer "p" on a fresh state, `N` still does not map "p" to the message. -/
theorem handle_stub_does_not_record :
    (∀ (s : NominationState) (node : GoStr) (m : NominateMessage),
        Handle s node m = s) ∧
      nLookup (Handle NewNominationState (str [112]) msg0).N (str [112]) = none :=
  ⟨fun _ _ _ => rfl, rfl⟩

/-- C8: `SetDefault v` sets the voted set `X` to the singleton `[v]` (leaving
`Y`, `Z`, `N` unchanged) when `X` is empty, and leaves the entire state
unchanged when `X` is non-empty. -/
theorem setDefault_spec (s : NominationState) (v : SlotValue) :
    (s.X = [] → SetDefault s v = { s with X := [v] }) ∧
      (s.X ≠ [] → SetDefault s v = s) := by
  constructor
  · intro h
    unfold SetDefault HasNomination
    rw [h]
    rfl
  · intro h
    unfold SetDefault HasNomination
    have : s.X.length > 0 := List.length_pos.mpr h
    simp [this]

/-- Witness for C8 at the empty state and at a state with a vote present. -/
theorem setDefault_spec_witness :
    SetDefault NewNominationState (MakeSlotValue (str [99])) =
        { NewNominationState with X := [MakeSlotValue (str [99])] } ∧
      SetDefault { NewNominationState with X := [MakeSlotValue (str [100])] }
          (MakeSlotValue (str [99])) =
        { NewNominationState with X := [MakeSlotValue (str [100])] } :=
  ⟨(setDefault_spec NewNominationState (MakeSlotValue (str [99]))).1 rfl,
   (setDefault_spec { NewNominationState with X := [MakeSlotValue (str [100])] }
      (MakeSlotValue (str [99]))).2 (by simp)⟩

/-! ## SignedOperation (util package).

The cryptographic primitives live below the `sign / verify / hash` interface
that the spec treats as an external collaborator, so they are modelled from
the spec's contract for them; `NewSignedOperation` and
`SignedOperation.Verify` themselves are embedded from the source. -/

structure PublicKey where
  key : GoStr
deriving DecidableEq

/-- Modelled from the spec: the external key-pair primitive of the abstract
signature scheme (out-of-scope collaborator, §1).  Only the operations the
embedded code uses appear: `PublicKey().String()` and `Sign`. -/
structure KeyPair where
  pub : GoStr

def KeyPair.PublicKeyString (kp : KeyPair) : GoStr := kp.pub

/-- Modelled from the spec: `kp.Sign(message)` of the abstract signature
scheme.  Signatures are tagged with a leading byte 2 so that they are a
distinct namespace from key strings (which carry a leading byte 1 below). -/
def KeyPair.Sign (kp : KeyPair) (msg : GoStr) : GoStr :=
  mkByte 2 :: (kp.pub ++ msg)

/-- Modelled from the spec: `util.ReadPublicKey` parses a public-key string
and errors on malformed input; well-formed key strings start with byte 1. -/
def ReadPublicKey (s : GoStr) : Option PublicKey :=
  if s.head? = some (mkByte 1) then some ⟨s⟩ else none

/-- Modelled from the spec: `util.Verify(publicKey, message, signature)`
accepts exactly the signature `Sign` produces for `message` under the key
pair owning `publicKey`, which is the spec's round-trip law
`verify(sign(op, kp), kp.pub) == true`. -/
def VerifySig (pk : PublicKey) (msg sig : GoStr) : Bool :=
  sig == mkByte 2 :: (pk.key ++ msg)

/-- Modelled from the spec: the polymorphic `Operation` capability set
`{signer, verify, serialize}` that the util code uses, as a closed record
(§9 recommends the closed-union view). -/
structure Operation where
  signer : GoStr
  body : GoStr
  verifyOk : Bool
deriving DecidableEq

/-- Modelled from the spec: `json.Marshal` of an operation — the
deterministic canonical byte form of §4.4 (a pure function of the
operation). -/
def jsonMarshal (op : Operation) : GoStr :=
  mkByte 123 :: (op.signer ++ op.body) ++ [mkByte 125]

def Operation.Verify (op : Operation) : Bool := op.verifyOk

structure SignedOperation where
  operation : Option Operation
  Signature : GoStr
deriving DecidableEq

/-- `NewSignedOperation` from the util package.  A nil operation or a foreign
signer hits `Logger.Fatal`, modelled as `none`. -/
def NewSignedOperation (op : Option Operation) (kp : KeyPair) :
    Option SignedOperation :=
  match op with
  | none => none
  | some o =>
    if kp.PublicKeyString ≠ o.signer then none
    else some ⟨some o, kp.Sign (jsonMarshal o)⟩

/-- `SignedOperation.Verify` from the util package.  The third argument of
the signature check is `s.Operation.Signer()` — exactly as in the source,
which never reads `s.Signature`. -/
def SignedOperation.Verify (s : SignedOperation) : Bool :=
  match s.operation with
  | none => false
  | some o =>
    match ReadPublicKey o.signer with
    | none => false
    | some pk =>
      if !(VerifySig pk (jsonMarshal o) o.signer) then false
      else if !o.Verify then false
      else true

/-- Key pair and operation for the C2 failing input. -/
def kp0 : KeyPair := ⟨[mkByte 1]⟩

def op0 : Operation := ⟨[mkByte 1], [mkByte 97], true⟩

def s0 : SignedOperation := ⟨some op0, kp0.Sign (jsonMarshal op0)⟩

/-- C2 (code bug): `Verify` never reads `s.Signature` (changing the field
cannot change the result), and concretely, signing a well-formed operation
with the matching key pair produces a signed operation whose `Verify` returns
`false` — the source passes `s.Operation.Signer()` where the signature
belongs. -/
theorem sign_verify_roundtrip_fails :
    (∀ (s : SignedOperation) (sig : GoStr),
        SignedOperation.Verify s =
          SignedOperation.Verify { s with Signature := sig }) ∧
      NewSignedOperation (some op0) kp0 = some s0 ∧
      s0.Verify = false := by
  refine ⟨fun s sig => rfl, by decide, by decide⟩

/-- C10: `Verify` returns `false` (it does not panic and does not return
`true`) when the wrapped operation is nil, and likewise when the signer
string does not parse as a public key. -/
theorem verify_false_on_nil_or_bad_signer (s : SignedOperation) :
    (s.operation = none → s.Verify = false) ∧
      (∀ op, s.operation = some op → ReadPublicKey op.signer = none →
        s.Verify = false) := by
  constructor
  · intro h
    unfold SignedOperation.Verify
    rw [h]
  · intro op hop hpk
    simp [SignedOperation.Verify, hop, hpk]

/-- Witness for C10: a nil-operation wrapper, and an operation whose signer
"a" is not a well-formed key string. -/
theorem verify_false_on_nil_or_bad_signer_witness :
    SignedOperation.Verify ⟨none, []⟩ = false ∧
      SignedOperation.Verify ⟨some ⟨[mkByte 97], [], true⟩, []⟩ = false :=
  ⟨(verify_false_on_nil_or_bad_signer ⟨none, []⟩).1 rfl,
   (verify_false_on_nil_or_bad_signer ⟨some ⟨[mkByte 97], [], true⟩, []⟩).2
      ⟨[mkByte 97], [], true⟩ rfl (by decide)⟩

/-! ## Fixed-width big-endian encoders (spec §4.5 wire integers). -/

def u16be (n : Nat) : GoStr := [mkByte (n / 2 ^ 8), mkByte n]

def u32be (n : Nat) : GoStr :=
  [mkByte (n / 2 ^ 24), mkByte (n / 2 ^ 16), mkByte (n / 2 ^ 8), mkByte n]

def u64be (n : Nat) : GoStr :=
  [mkByte (n / 2 ^ 56), mkByte (n / 2 ^ 48), mkByte (n / 2 ^ 40),
   mkByte (n / 2 ^ 32), mkByte (n / 2 ^ 24), mkByte (n / 2 ^ 16),
   mkByte (n / 2 ^ 8), mkByte n]

theorem u16be_inj {n m : Nat} (hn : n < 2 ^ 16) (hm : m < 2 ^ 16)
    (h : u16be n = u16be m) : n = m := by
  simp only [u16be, mkByte, List.cons.injEq, Fin.mk.injEq, and_true] at h
  omega

theorem u32be_inj {n m : Nat} (hn : n < 2 ^ 32) (hm : m < 2 ^ 32)
    (h : u32be n = u32be m) : n = m := by
  simp only [u32be, mkByte, List.cons.injEq, Fin.mk.injEq, and_true] at h
  omega

theorem u64be_inj {n m : Nat} (hn : n < 2 ^ 64) (hm : m < 2 ^ 64)
    (h : u64be n = u64be m) : n = m := by
  simp only [u64be, mkByte, List.cons.injEq, Fin.mk.injEq, and_true] at h
  omega

/-! ## Transaction queue (currency package).

`TransactionQueue` itself is not under src/ — only its test is — so the queue
is modelled from the spec, §4.3 (with the §4.2 balance check and the
§6 `queue_limit` default of 1000). -/

/-- Modelled from the spec: a signed transaction as the queue sees it — the
`SendOperation` fields `{from, to, amount}` with `{sequence, fee}` of the
capability set, and a flag telling whether a signature is present and
verifies (the signature scheme is an external primitive). -/
structure QTx where
  fromAddr : GoStr
  toAddr : GoStr
  amount : Nat
  fee : Nat
  sequence : Nat
  sigOk : Bool
deriving DecidableEq

/-- Modelled from the spec: `queue_limit`, default 1000 (§6). -/
def QueueLimit : Nat := 1000

/-- Modelled from the spec: the canonical byte form of a transaction (§4.4),
used for the dedup identity and the eviction tie-break. -/
def txBytes (t : QTx) : GoStr :=
  u16be t.fromAddr.length ++ t.fromAddr ++ u16be t.toAddr.length ++ t.toAddr ++
    u64be t.amount ++ u64be t.fee ++ u32be t.sequence

/-- Modelled from the spec: the queue together with its balance-tracking
account store (`q.accounts` in the test); `SetBalance` assignments are kept
in order, the last one winning. -/
structure TransactionQueue where
  txs : List QTx
  balances : List (GoStr × Nat)

def NewTransactionQueue : TransactionQueue := ⟨[], []⟩

def getBalance (bs : List (GoStr × Nat)) (a : GoStr) : Nat :=
  match bs.reverse.find? (fun p => p.1 == a) with
  | some p => p.2
  | none => 0

def SetBalance (q : TransactionQueue) (a : GoStr) (b : Nat) : TransactionQueue :=
  { q with balances := q.balances ++ [(a, b)] }

/-- Modelled from the spec: total amount-plus-fee the queued transactions of
one signer would spend (§4.3: "signer's projected balance (given all queued
txs from same signer)"). -/
def projectedSpend (txs : List QTx) (a : GoStr) : Nat :=
  (txs.filter fun t => t.fromAddr == a).foldl (fun acc t => acc + t.amount + t.fee) 0

/-- Modelled from the spec: the §4.3 admission test of `add` — reject when
unsigned or the signature fails, or when the signer's projected balance
cannot cover the transaction. -/
def accepts (q : TransactionQueue) (t : QTx) : Bool :=
  t.sigOk &&
    decide (projectedSpend q.txs t.fromAddr + t.amount + t.fee ≤
      getBalance q.balances t.fromAddr)

/-- Modelled from the spec: eviction priority — `a` is evicted before `b`
when it has lower fee; ties go to the higher sequence, then to the greater
canonical bytes ("canonical-bytes descending"). -/
def evictsBefore (a b : QTx) : Bool :=
  if a.fee < b.fee then true
  else if b.fee < a.fee then false
  else if b.sequence < a.sequence then true
  else if a.sequence < b.sequence then false
  else strLt (txBytes b) (txBytes a)

/-- The entry of `d :: l` that the overflow eviction removes. -/
def worstIn (l : List QTx) (d : QTx) : QTx :=
  match l with
  | [] => d
  | u :: rest => if evictsBefore u d then worstIn rest u else worstIn rest d

/-- Modelled from the spec: `add(tx)` — ignore `⊥`, duplicates, and
transactions failing the admission test; append on acceptance and, if the
size now exceeds `QUEUE_LIMIT`, evict the lowest-fee entry. -/
def Add (q : TransactionQueue) (t : Option QTx) : TransactionQueue :=
  match t with
  | none => q
  | some t =>
    if t ∈ q.txs then q
    else if accepts q t then
      let enlarged := q.txs ++ [t]
      if QueueLimit < enlarged.length then
        { q with txs := enlarged.erase (worstIn q.txs t) }
      else { q with txs := enlarged }
    else q

/-- Modelled from the spec: `remove(tx)` by canonical identity; no-op when
absent. -/
def Remove (q : TransactionQueue) (t : QTx) : TransactionQueue :=
  { q with txs := q.txs.filter fun u => u ≠ t }

def Size (q : TransactionQueue) : Nat := q.txs.length

inductive QueueOp where
  | addOp : Option QTx → QueueOp
  | removeOp : QTx → QueueOp
  | setBalanceOp : GoStr → Nat → QueueOp

def applyOp (q : TransactionQueue) : QueueOp → TransactionQueue
  | QueueOp.addOp t => Add q t
  | QueueOp.removeOp t => Remove q t
  | QueueOp.setBalanceOp a b => SetBalance q a b

def runOps (q : TransactionQueue) (ops : List QueueOp) : TransactionQueue :=
  ops.foldl applyOp q

theorem worstIn_mem : ∀ (l : List QTx) (d : QTx), worstIn l d ∈ d :: l
  | [], _ => List.mem_cons_self _ _
  | u :: rest, d => by
    rw [worstIn]
    by_cases h : evictsBefore u d
    · rw [if_pos h]
      exact List.mem_cons_of_mem d (worstIn_mem rest u)
    · rw [if_neg h]
      rcases List.mem_cons.mp (worstIn_mem rest d) with h' | h'
      · rw [h']
        exact List.mem_cons_self d (u :: rest)
      · exact List.mem_cons_of_mem d (List.mem_cons_of_mem u h')

theorem evictsBefore_fee {a b : QTx} (h : evictsBefore a b = true) :
    a.fee ≤ b.fee := by
  unfold evictsBefore at h
  split at h
  · omega
  · split at h
    · cases h
    · omega

theorem evictsBefore_fee' {a b : QTx} (h : evictsBefore a b = false) :
    b.fee ≤ a.fee := by
  unfold evictsBefore at h
  split at h
  · cases h
  · omega

theorem worstIn_fee_min : ∀ (l : List QTx) (d : QTx), ∀ u ∈ d :: l,
    (worstIn l d).fee ≤ u.fee
  | [], d, u, hu => by
    rcases List.mem_cons.mp hu with rfl | h
    · exact Nat.le_refl _
    · exact absurd h (List.not_mem_nil u)
  | v :: rest, d, u, hu => by
    rw [worstIn]
    by_cases h : evictsBefore v d
    · rw [if_pos h]
      rcases List.mem_cons.mp hu with h1 | h1
      · subst h1
        exact Nat.le_trans
          (worstIn_fee_min rest v v (List.mem_cons_self v rest))
          (evictsBefore_fee h)
      · exact worstIn_fee_min rest v u h1
    · rw [if_neg h]
      have hf : evictsBefore v d = false := Bool.eq_false_iff.mpr h
      rcases List.mem_cons.mp hu with h1 | h1
      · subst h1
        exact worstIn_fee_min rest _ _ (List.mem_cons_self _ rest)
      · rcases List.mem_cons.mp h1 with h2 | h2
        · subst h2
          exact Nat.le_trans
            (worstIn_fee_min rest d d (List.mem_cons_self d rest))
            (evictsBefore_fee' hf)
        · exact worstIn_fee_min rest d u (List.mem_cons_of_mem d h2)

theorem size_applyOp (q : TransactionQueue) (op : QueueOp)
    (h : Size q ≤ QueueLimit) : Size (applyOp q op) ≤ QueueLimit := by
  cases op with
  | addOp t =>
    cases t with
    | none => exact h
    | some t =>
      simp only [applyOp, Add]
      by_cases hmem : t ∈ q.txs
      · rw [if_pos hmem]; exact h
      · rw [if_neg hmem]
        by_cases hacc : accepts q t
        · rw [if_pos hacc]
          by_cases hlim : QueueLimit < (q.txs ++ [t]).length
          · rw [if_pos hlim]
            show ((q.txs ++ [t]).erase (worstIn q.txs t)).length ≤ QueueLimit
            have hmem2 : worstIn q.txs t ∈ q.txs ++ [t] := by
              rcases List.mem_cons.mp (worstIn_mem q.txs t) with h' | h'
              · rw [h']
                exact List.mem_append.mpr (Or.inr (List.mem_cons_self t []))
              · exact List.mem_append.mpr (Or.inl h')
            rw [List.length_erase_of_mem hmem2]
            simp only [List.length_append, List.length_cons, List.length_nil, Size] at *
            omega
          · rw [if_neg hlim]
            show (q.txs ++ [t]).length ≤ QueueLimit
            omega
        · rw [if_neg hacc]; exact h
  | removeOp t =>
    simp only [applyOp, Remove, Size]
    exact Nat.le_trans (List.length_filter_le _ _) h
  | setBalanceOp a b => exact h

/-- C5: starting from the empty queue, after any sequence of `Add`, `Remove`
and `SetBalance` calls the queue size is at most `QUEUE_LIMIT`; and whenever
an accepted, non-duplicate `Add` on a full queue would push the size past the
limit, a lowest-fee entry of the enlarged queue is evicted and the size stays
at the limit. -/
theorem queue_size_bounded_and_evicts :
    (∀ ops : List QueueOp, Size (runOps NewTransactionQueue ops) ≤ QueueLimit) ∧
      ∀ (q : TransactionQueue) (t : QTx), Size q = QueueLimit →
        t ∉ q.txs → accepts q t = true →
        Size (Add q (some t)) = QueueLimit ∧
          ∃ e, e ∈ q.txs ++ [t] ∧ (∀ u ∈ q.txs ++ [t], e.fee ≤ u.fee) ∧
            (Add q (some t)).txs = (q.txs ++ [t]).erase e := by
  constructor
  · intro ops
    have : ∀ (l : List QueueOp) (q : TransactionQueue), Size q ≤ QueueLimit →
        Size (runOps q l) ≤ QueueLimit := by
      intro l
      induction l with
      | nil => exact fun q h => h
      | cons op rest ih => exact fun q h => ih (applyOp q op) (size_applyOp q op h)
    exact this ops NewTransactionQueue (by simp [Size, NewTransactionQueue, QueueLimit])
  · intro q t hsize hmem hacc
    have hworst : worstIn q.txs t ∈ q.txs ++ [t] := by
      rcases List.mem_cons.mp (worstIn_mem q.txs t) with h' | h'
      · rw [h']
        exact List.mem_append.mpr (Or.inr (List.mem_cons_self t []))
      · exact List.mem_append.mpr (Or.inl h')
    have hlim : QueueLimit < (q.txs ++ [t]).length := by
      simp only [List.length_append, List.length_cons, List.length_nil, Size] at *
      omega
    have hadd : Add q (some t) =
        { q with txs := (q.txs ++ [t]).erase (worstIn q.txs t) } := by
      simp only [Add, if_neg hmem, if_pos hacc, if_pos hlim]
    constructor
    · rw [hadd]
      show ((q.txs ++ [t]).erase (worstIn q.txs t)).length = QueueLimit
      rw [List.length_erase_of_mem hworst]
      simp only [List.length_append, List.length_cons, List.length_nil, Size] at *
      omega
    · refine ⟨worstIn q.txs t, hworst, ?_, by rw [hadd]⟩
      intro u hu
      apply worstIn_fee_min q.txs t
      rcases List.mem_append.mp hu with h' | h'
      · exact List.mem_cons_of_mem t h'
      · rcases List.mem_cons.mp h' with rfl | h''
        · exact List.mem_cons_self u q.txs
        · exact absurd h'' (List.not_mem_nil u)

/-- Entries for the C5 witness: a full queue of `tx0`s and a fresh `tNew`. -/
def tx0 : QTx := ⟨[mkByte 1], [], 0, 1, 1, true⟩

def tNew : QTx := ⟨[mkByte 3], [], 1, 2, 1, true⟩

def qBig : TransactionQueue := ⟨List.replicate 1000 tx0, [([mkByte 3], 10)]⟩

theorem qBig_size : Size qBig = QueueLimit := by
  simp [Size, qBig, QueueLimit]

theorem tNew_not_mem_qBig : tNew ∉ qBig.txs := by
  intro h
  have h' : tNew = tx0 := List.eq_of_mem_replicate h
  cases h'

theorem accepts_qBig_tNew : accepts qBig tNew = true := by
  have hfil : qBig.txs.filter (fun t => t.fromAddr == tNew.fromAddr) = [] := by
    rw [List.filter_eq_nil_iff]
    intro t ht
    have h' : t = tx0 := List.eq_of_mem_replicate ht
    subst h'
    decide
  unfold accepts projectedSpend
  rw [hfil]
  decide

/-- Witness for C5: the empty call sequence respects the bound, and adding an
accepted fresh transaction to a full queue keeps the size at the limit. -/
theorem queue_size_bounded_and_evicts_witness :
    Size (runOps NewTransactionQueue []) ≤ QueueLimit ∧
      Size (Add qBig (some tNew)) = QueueLimit :=
  ⟨queue_size_bounded_and_evicts.1 [],
   (queue_size_bounded_and_evicts.2 qBig tNew qBig_size tNew_not_mem_qBig
      accepts_qBig_tNew).1⟩

/-! ## Ledger chunk hashing (currency package).

`LedgerChunk` and its `Hash` are not under src/ — only `TestLedgerChunkHashing`
is — so the chunk and its canonical serialization are modelled from §4.5 of
the spec. -/

/-- Modelled from the spec: `Account { sequence: u32, balance: u64 }` (§3). -/
structure Account where
  sequence : Fin (2 ^ 32)
  balance : Fin (2 ^ 64)
deriving DecidableEq

/-- Modelled from the spec: a transaction inside a chunk is represented by
its canonical byte form, which §4.4 makes unique per transaction. -/
abbrev TxBytes := GoStr

/-- Modelled from the spec: `LedgerChunk { transactions, state }` (§3).  The
Go map `state` is carried as its association list sorted strictly ascending
by address — the order §4.5 serializes — with addresses fitting the u16
length prefix the serialization assigns them. -/
structure LedgerChunk where
  transactions : List TxBytes
  state : List (GoStr × Account)
  state_sorted : List.Pairwise (fun a b => strLt a.1 b.1 = true) state
  state_short : ∀ p ∈ state, p.1.length < 2 ^ 16

/-- Modelled from the spec (§4.5, item 2): each transaction's canonical bytes
length-prefixed with a u32 big-endian. -/
def txSection (ts : List TxBytes) : GoStr :=
  (ts.map fun t => u32be t.length ++ t).flatten

/-- Modelled from the spec (§4.5, item 4): address length (u16 BE), address
bytes, sequence (u32 BE), balance (u64 BE). -/
def entryBytes (p : GoStr × Account) : GoStr :=
  u16be p.1.length ++ p.1 ++ u32be p.2.sequence.val ++ u64be p.2.balance.val

def stateSection (es : List (GoStr × Account)) : GoStr :=
  (es.map entryBytes).flatten

/-- Modelled from the spec (§4.5): tag byte 0x01, the transaction section,
tag byte 0x02, the state section. -/
def chunkBytes (c : LedgerChunk) : GoStr :=
  mkByte 1 :: txSection c.transactions ++ mkByte 2 :: stateSection c.state

/-- Modelled from the spec: the external SHA3-512 primitive as §4.5 consumes
it — §1 specifies only "a fixed collision-resistant hash", so it is idealized
as an injective map on byte strings, embedded as the identity.  Every
statement below that only needs congruence (equal serializations give equal
hashes) is independent of this idealization. -/
def hashPrim (l : GoStr) : GoStr := l

def Hash (c : LedgerChunk) : GoStr := hashPrim (chunkBytes c)

/-- Lookup of an address in a chunk state (the Go map read). -/
def stateLookup (es : List (GoStr × Account)) (a : GoStr) : Option Account :=
  (es.find? fun p => p.1 == a).map Prod.snd

theorem stateSection_cons (p : GoStr × Account) (es : List (GoStr × Account)) :
    stateSection (p :: es) = entryBytes p ++ stateSection es := by
  simp [stateSection]

theorem stateSection_append (es fs : List (GoStr × Account)) :
    stateSection (es ++ fs) = stateSection es ++ stateSection fs := by
  simp [stateSection]

theorem txSection_cons (t : TxBytes) (ts : List TxBytes) :
    txSection (t :: ts) = u32be t.length ++ (t ++ txSection ts) := by
  simp [txSection]

theorem Account.ext' : ∀ x y : Account,
    x.sequence = y.sequence → x.balance = y.balance → x = y
  | ⟨_, _⟩, ⟨_, _⟩, h1, h2 => by cases h1; cases h2; rfl

/-- The state section parses back uniquely: the u16 length prefix recovers
the address, and the fixed-width sequence and balance follow. -/
theorem stateSection_inj : ∀ es fs : List (GoStr × Account),
    (∀ p ∈ es, p.1.length < 2 ^ 16) → (∀ p ∈ fs, p.1.length < 2 ^ 16) →
    stateSection es = stateSection fs → es = fs
  | [], [], _, _, _ => rfl
  | [], f :: fs, _, _, h => by
    rw [stateSection_cons] at h
    simp [stateSection, entryBytes, u16be] at h
  | e :: es, [], _, _, h => by
    rw [stateSection_cons] at h
    simp [stateSection, entryBytes, u16be] at h
  | e :: es, f :: fs, he, hf, h => by
    rw [stateSection_cons, stateSection_cons] at h
    unfold entryBytes at h
    simp only [List.append_assoc] at h
    obtain ⟨h16, h1⟩ := List.append_inj h (by simp [u16be])
    have hlen : e.1.length = f.1.length :=
      u16be_inj (he e (List.mem_cons_self e es)) (hf f (List.mem_cons_self f fs)) h16
    obtain ⟨ha, h2⟩ := List.append_inj h1 hlen
    obtain ⟨hs, h3⟩ := List.append_inj h2 (by simp [u32be])
    obtain ⟨hb, h4⟩ := List.append_inj h3 (by simp [u64be])
    have hseq : e.2.sequence.val = f.2.sequence.val :=
      u32be_inj e.2.sequence.isLt f.2.sequence.isLt hs
    have hbal : e.2.balance.val = f.2.balance.val :=
      u64be_inj e.2.balance.isLt f.2.balance.isLt hb
    have hef : e = f := by
      rw [Prod.ext_iff]
      exact ⟨ha, Account.ext' e.2 f.2 (Fin.ext hseq) (Fin.ext hbal)⟩
    rw [hef, stateSection_inj es fs
      (fun p hp => he p (List.mem_cons_of_mem e hp))
      (fun p hp => hf p (List.mem_cons_of_mem f hp)) h4]

/-- The transaction section followed by `0x02 :: rest` parses back uniquely
as long as no transaction is 2^25 bytes or longer: the u32 length prefixes
separate the transactions, and a prefix byte can only collide with the 0x02
section tag when a transaction length reaches the 2^25 range. -/
theorem txSection_split_inj : ∀ (ts us : List TxBytes) (ra rb : GoStr),
    (∀ t ∈ ts, t.length < 2 ^ 25) → (∀ u ∈ us, u.length < 2 ^ 25) →
    txSection ts ++ mkByte 2 :: ra = txSection us ++ mkByte 2 :: rb →
    ts = us ∧ ra = rb
  | [], [], ra, rb, _, _, h => by
    simp only [txSection, List.map_nil, List.flatten_nil, List.nil_append,
      List.cons.injEq] at h
    exact ⟨rfl, h.2⟩
  | [], u :: us, ra, rb, _, hu, h => by
    rw [txSection_cons] at h
    simp only [txSection, List.map_nil, List.flatten_nil, List.nil_append,
      u32be, List.cons_append, List.cons.injEq, mkByte, Fin.mk.injEq] at h
    have := hu u (List.mem_cons_self u us)
    omega
  | t :: ts, [], ra, rb, ht, _, h => by
    rw [txSection_cons] at h
    simp only [txSection, List.map_nil, List.flatten_nil, List.nil_append,
      u32be, List.cons_append, List.cons.injEq, mkByte, Fin.mk.injEq] at h
    have := ht t (List.mem_cons_self t ts)
    omega
  | t :: ts, u :: us, ra, rb, ht, hu, h => by
    rw [txSection_cons, txSection_cons] at h
    simp only [List.append_assoc] at h
    obtain ⟨h32, h1⟩ := List.append_inj h (by simp [u32be])
    have hlen : t.length = u.length := by
      have hta := ht t (List.mem_cons_self t ts)
      have hua := hu u (List.mem_cons_self u us)
      exact u32be_inj (by omega) (by omega) h32
    obtain ⟨htu, h2⟩ := List.append_inj h1 hlen
    obtain ⟨hts', hra⟩ := txSection_split_inj ts us ra rb
      (fun x hx => ht x (List.mem_cons_of_mem t hx))
      (fun x hx => hu x (List.mem_cons_of_mem u hx)) h2
    exact ⟨by rw [htu, hts'], hra⟩

theorem stateLookup_head (p : GoStr × Account) (es : List (GoStr × Account)) :
    stateLookup (p :: es) p.1 = some p.2 := by
  simp [stateLookup, List.find?_cons_of_pos]

theorem stateLookup_cons_ne (p : GoStr × Account) (es : List (GoStr × Account))
    (a : GoStr) (h : ¬ p.1 = a) :
    stateLookup (p :: es) a = stateLookup es a := by
  simp [stateLookup, List.find?_cons_of_neg, h]

theorem stateLookup_none (es : List (GoStr × Account)) (a : GoStr)
    (h : ∀ p ∈ es, strLt a p.1 = true) : stateLookup es a = none := by
  unfold stateLookup
  have hfind : es.find? (fun p => p.1 == a) = none := by
    rw [List.find?_eq_none]
    intro p hp hbeq
    have hpa : p.1 = a := by simpa using hbeq
    have := h p hp
    rw [← hpa, strLt_irrefl] at this
    cases this
  rw [hfind]
  rfl

/-- Strictly key-sorted association lists with the same lookups are equal. -/
theorem lookup_ext : ∀ es fs : List (GoStr × Account),
    List.Pairwise (fun a b => strLt a.1 b.1 = true) es →
    List.Pairwise (fun a b => strLt a.1 b.1 = true) fs →
    (∀ a, stateLookup es a = stateLookup fs a) → es = fs
  | [], [], _, _, _ => rfl
  | [], f :: fs, _, _, h => by
    have h1 := h f.1
    rw [stateLookup_head] at h1
    simp [stateLookup] at h1
  | e :: es, [], _, _, h => by
    have h1 := h e.1
    rw [stateLookup_head] at h1
    simp [stateLookup] at h1
  | e :: es, f :: fs, hes, hfs, h => by
    have hes' := List.pairwise_cons.mp hes
    have hfs' := List.pairwise_cons.mp hfs
    rcases strLt_trichotomy e.1 f.1 with hlt | heq | hgt
    · have h1 := h e.1
      rw [stateLookup_head] at h1
      have h2 : stateLookup (f :: fs) e.1 = none := by
        apply stateLookup_none
        intro p hp
        rcases List.mem_cons.mp hp with rfl | hp'
        · exact hlt
        · exact strLt_trans _ _ _ hlt (hfs'.1 p hp')
      rw [h2] at h1
      cases h1
    · have h1 := h e.1
      rw [stateLookup_head] at h1
      have h2 : stateLookup (f :: fs) e.1 = some f.2 := by
        rw [heq]
        exact stateLookup_head f fs
      rw [h2, Option.some.injEq] at h1
      have hef : e = f := Prod.ext_iff.mpr ⟨heq, h1⟩
      have hext : ∀ a, stateLookup es a = stateLookup fs a := by
        intro a
        by_cases hae : a = e.1
        · rw [hae]
          rw [stateLookup_none es e.1 fun p hp => hes'.1 p hp,
            stateLookup_none fs e.1 fun p hp => by
              rw [heq]; exact hfs'.1 p hp]
        · have h3 := h a
          rw [stateLookup_cons_ne e es a fun hh => hae hh.symm,
            stateLookup_cons_ne f fs a fun hh => hae (heq ▸ hh.symm)] at h3
          exact h3
      rw [hef, lookup_ext es fs hes'.2 hfs'.2 hext]
    · have h1 := h f.1
      rw [stateLookup_head] at h1
      have h2 : stateLookup (e :: es) f.1 = none := by
        apply stateLookup_none
        intro p hp
        rcases List.mem_cons.mp hp with rfl | hp'
        · exact hgt
        · exact strLt_trans _ _ _ hgt (hes'.1 p hp')
      rw [h2] at h1
      cases h1

/-- C4 (amended): provided every transaction's canonical byte form is shorter
than 2^25 bytes, two ledger chunks hash equal iff their transaction lists are
element-wise equal and their state maps bind exactly the same accounts (so
swapping two addresses' accounts, adding, or omitting a transaction changes
the hash).  The length bound is forced by `chunk_hash_collision` below: §4.5
never encodes the transaction count, so a 2^25-byte transaction can swallow
the 0x02 section separator. -/
theorem chunk_hash_iff (c1 c2 : LedgerChunk)
    (h1 : ∀ t ∈ c1.transactions, t.length < 2 ^ 25)
    (h2 : ∀ t ∈ c2.transactions, t.length < 2 ^ 25) :
    Hash c1 = Hash c2 ↔
      (c1.transactions = c2.transactions ∧
        ∀ a, stateLookup c1.state a = stateLookup c2.state a) := by
  constructor
  · intro h
    have hb : mkByte 1 :: txSection c1.transactions ++ mkByte 2 ::
        stateSection c1.state = mkByte 1 :: txSection c2.transactions ++
        mkByte 2 :: stateSection c2.state := h
    injection hb with hb1 hb2
    obtain ⟨hts, hst⟩ := txSection_split_inj _ _ _ _ h1 h2 hb2
    refine ⟨hts, ?_⟩
    rw [stateSection_inj c1.state c2.state c1.state_short c2.state_short hst]
    exact fun a => rfl
  · rintro ⟨hts, hlook⟩
    have hstate : c1.state = c2.state :=
      lookup_ext c1.state c2.state c1.state_sorted c2.state_sorted hlook
    show hashPrim (chunkBytes c1) = hashPrim (chunkBytes c2)
    unfold chunkBytes
    rw [hts, hstate]

/-- Chunk used by the C4 witness. -/
def chunkW : LedgerChunk :=
  ⟨[[mkByte 5]], [([mkByte 7], ⟨⟨3, by decide⟩, ⟨9, by decide⟩⟩)],
    by simp, by simp⟩

/-- Witness for C4 (amended) at a one-transaction, one-account chunk. -/
theorem chunk_hash_iff_witness :
    (∀ t ∈ chunkW.transactions, t.length < 2 ^ 25) ∧
      (Hash chunkW = Hash chunkW ↔
        (chunkW.transactions = chunkW.transactions ∧
          ∀ a, stateLookup chunkW.state a = stateLookup chunkW.state a)) :=
  ⟨by decide, chunk_hash_iff chunkW chunkW (by decide) (by decide)⟩

/-! ### C4 counterexample: without a transaction length bound the §4.5
serialization is not injective.  The chunk `chunkA` below has no transactions
and a large state whose serialization happens to start with the bytes
`0x02 0x00 0x00 0x00` after the section tag; `chunkB` has a single
transaction of exactly 2^25 bytes and an empty state, and serializes to the
very same byte string. -/

def acc0 : Account := ⟨⟨0, by decide⟩, ⟨0, by decide⟩⟩

def accLast : Account := ⟨⟨0, by decide⟩, ⟨2, by decide⟩⟩

/-- Six-byte big-endian address of `i`. -/
def addr6 (i : Nat) : GoStr :=
  [mkByte (i / 2 ^ 40), mkByte (i / 2 ^ 32), mkByte (i / 2 ^ 24),
   mkByte (i / 2 ^ 16), mkByte (i / 2 ^ 8), mkByte i]

def fillerCount : Nat := 1677720

def fillers : List (GoStr × Account) :=
  (List.range fillerCount).map fun i => (addr6 i, acc0)

def addr8 : GoStr := mkByte 255 :: List.replicate 7 (mkByte 0)

def stateA : List (GoStr × Account) :=
  (([] : GoStr), acc0) :: (fillers ++ [(addr8, accLast)])

/-- The last state entry's bytes without their final `0x02`. -/
def lastEntryHead : GoStr :=
  u16be 8 ++ addr8 ++ u32be 0 ++ List.replicate 7 (mkByte 0)

def bigTxBytes : GoStr :=
  List.replicate 11 (mkByte 0) ++ stateSection fillers ++ lastEntryHead

theorem mkByte_val (n : Nat) : (mkByte n).val = n % 256 := rfl

theorem strLt_cons (a b : Byte) (as bs : GoStr) :
    strLt (a :: as) (b :: bs) =
      if a.val < b.val then true
      else if b.val < a.val then false
      else strLt as bs := rfl

theorem strLt_nil : strLt [] [] = false := rfl

theorem addr6_lt (i j : Nat) (hij : i < j) (hj : j < 2 ^ 48) :
    strLt (addr6 i) (addr6 j) = true := by
  unfold addr6
  rw [strLt_cons, mkByte_val, mkByte_val]
  by_cases h5 : i / 2 ^ 40 % 256 < j / 2 ^ 40 % 256
  · rw [if_pos h5]
  · rw [if_neg h5, if_neg (by omega), strLt_cons, mkByte_val, mkByte_val]
    have e5 : i / 2 ^ 40 % 256 = j / 2 ^ 40 % 256 := by omega
    by_cases h4 : i / 2 ^ 32 % 256 < j / 2 ^ 32 % 256
    · rw [if_pos h4]
    · rw [if_neg h4, if_neg (by omega), strLt_cons, mkByte_val, mkByte_val]
      have e4 : i / 2 ^ 32 % 256 = j / 2 ^ 32 % 256 := by omega
      by_cases h3 : i / 2 ^ 24 % 256 < j / 2 ^ 24 % 256
      · rw [if_pos h3]
      · rw [if_neg h3, if_neg (by omega), strLt_cons, mkByte_val, mkByte_val]
        have e3 : i / 2 ^ 24 % 256 = j / 2 ^ 24 % 256 := by omega
        by_cases h2 : i / 2 ^ 16 % 256 < j / 2 ^ 16 % 256
        · rw [if_pos h2]
        · rw [if_neg h2, if_neg (by omega), strLt_cons, mkByte_val, mkByte_val]
          have e2 : i / 2 ^ 16 % 256 = j / 2 ^ 16 % 256 := by omega
          by_cases h1 : i / 2 ^ 8 % 256 < j / 2 ^ 8 % 256
          · rw [if_pos h1]
          · rw [if_neg h1, if_neg (by omega), strLt_cons, mkByte_val, mkByte_val]
            have e1 : i / 2 ^ 8 % 256 = j / 2 ^ 8 % 256 := by omega
            rw [if_pos (by omega)]

theorem fillers_sorted :
    List.Pairwise (fun a b => strLt a.1 b.1 = true) fillers := by
  unfold fillers
  rw [List.pairwise_map]
  refine (List.pairwise_lt_range fillerCount).imp_of_mem ?_
  intro a b ha hb hab
  exact addr6_lt a b hab
    (lt_trans (List.mem_range.mp hb) (by decide))

theorem stateA_sorted :
    List.Pairwise (fun a b => strLt a.1 b.1 = true) stateA := by
  unfold stateA
  rw [List.pairwise_cons]
  constructor
  · intro p hp
    rcases List.mem_append.mp hp with hp' | hp'
    · obtain ⟨i, _, rfl⟩ := List.mem_map.mp hp'
      simp [addr6, strLt]
    · have hp'' : p = (addr8, accLast) := by simpa using hp'
      subst hp''
      simp [addr8, strLt]
  · rw [List.pairwise_append]
    refine ⟨fillers_sorted, by simp, ?_⟩
    intro x hx y hy
    have hy' : y = (addr8, accLast) := by simpa using hy
    subst hy'
    obtain ⟨i, hi, rfl⟩ := List.mem_map.mp hx
    have hi' : i < fillerCount := List.mem_range.mp hi
    have hz : i / 2 ^ 40 = 0 :=
      Nat.div_eq_of_lt (lt_trans hi' (by decide))
    show strLt (addr6 i) addr8 = true
    rw [addr6, addr8, strLt_cons, mkByte_val, mkByte_val, hz]
    simp

theorem stateA_short : ∀ p ∈ stateA, p.1.length < 2 ^ 16 := by
  intro p hp
  rcases List.mem_cons.mp hp with rfl | hp'
  · decide
  · rcases List.mem_append.mp hp' with hp'' | hp''
    · obtain ⟨i, _, rfl⟩ := List.mem_map.mp hp''
      simp [addr6]
    · have h3 : p = (addr8, accLast) := by simpa using hp''
      subst h3
      simp [addr8]

def chunkA : LedgerChunk := ⟨[], stateA, stateA_sorted, stateA_short⟩

def chunkB : LedgerChunk := ⟨[bigTxBytes], [], List.Pairwise.nil, by simp⟩

theorem entryBytes_e0 :
    entryBytes ((([] : GoStr), acc0)) = List.replicate 14 (mkByte 0) := by
  decide

theorem entryBytes_last :
    entryBytes (addr8, accLast) = lastEntryHead ++ [mkByte 2] := by
  decide

theorem stateSection_length_const : ∀ (es : List (GoStr × Account)) (k : Nat),
    (∀ p ∈ es, (entryBytes p).length = k) →
    (stateSection es).length = k * es.length
  | [], _, _ => by simp [stateSection]
  | p :: es, k, h => by
    rw [stateSection_cons, List.length_append,
      stateSection_length_const es k fun q hq => h q (List.mem_cons_of_mem p hq),
      h p (List.mem_cons_self p es)]
    simp [List.length_cons]
    ring

theorem entryBytes_filler_length (i : Nat) :
    (entryBytes (addr6 i, acc0)).length = 20 := by
  simp [entryBytes, addr6, u16be, u32be, u64be]

theorem fillers_length : fillers.length = fillerCount := by
  simp [fillers]

theorem bigTxBytes_length : bigTxBytes.length = 2 ^ 25 := by
  have h20 : ∀ p ∈ fillers, (entryBytes p).length = 20 := by
    intro p hp
    obtain ⟨i, _, rfl⟩ := List.mem_map.mp hp
    exact entryBytes_filler_length i
  have hSF := stateSection_length_const fillers 20 h20
  rw [fillers_length] at hSF
  unfold bigTxBytes
  rw [List.length_append, List.length_append, hSF]
  simp [lastEntryHead, addr8, u16be, u32be, fillerCount]

theorem stateSection_nil : stateSection [] = [] := rfl

theorem stateSection_stateA :
    stateSection stateA =
      mkByte 0 :: mkByte 0 :: mkByte 0 :: (bigTxBytes ++ [mkByte 2]) := by
  unfold stateA bigTxBytes
  rw [stateSection_cons, stateSection_append, stateSection_cons, stateSection_nil,
    entryBytes_e0, entryBytes_last,
    show List.replicate 14 (mkByte 0) = mkByte 0 :: mkByte 0 :: mkByte 0 ::
      List.replicate 11 (mkByte 0) from rfl]
  simp only [List.cons_append, List.append_assoc, List.append_nil]

theorem chunkBytes_A :
    chunkBytes chunkA =
      mkByte 1 :: mkByte 2 :: mkByte 0 :: mkByte 0 :: mkByte 0 ::
        (bigTxBytes ++ [mkByte 2]) := by
  show mkByte 1 :: txSection [] ++ mkByte 2 :: stateSection stateA = _
  rw [stateSection_stateA]
  simp [txSection]

theorem chunkBytes_B :
    chunkBytes chunkB =
      mkByte 1 :: mkByte 2 :: mkByte 0 :: mkByte 0 :: mkByte 0 ::
        (bigTxBytes ++ [mkByte 2]) := by
  show mkByte 1 :: txSection [bigTxBytes] ++ mkByte 2 :: stateSection [] = _
  rw [txSection_cons, bigTxBytes_length,
    show u32be (2 ^ 25) = [mkByte 2, mkByte 0, mkByte 0, mkByte 0] from by decide]
  simp [txSection, stateSection]

/-- C4 counterexample: `chunkA` (no transactions, large state) and `chunkB`
(one 2^25-byte transaction, empty state) serialize §4.5-identically, so their
hashes agree under any hash function, yet their transaction lists differ. -/
theorem chunk_hash_collision :
    Hash chunkA = Hash chunkB ∧
      ¬ (chunkA.transactions = chunkB.transactions ∧
          ∀ a, stateLookup chunkA.state a = stateLookup chunkB.state a) := by
  constructor
  · show hashPrim (chunkBytes chunkA) = hashPrim (chunkBytes chunkB)
    rw [chunkBytes_A, chunkBytes_B]
  · rintro ⟨hts, _⟩
    simp [chunkA, chunkB] at hts

end Coinkit
